import Mathlib

/-
Verification of giantswarm/draughtsman-eventer.

The repository polls GitHub deployment events and reconciles them into a
shared desired-state object (the draughtsman TPO).  The sources contain
several historical snapshots of the same files; the current informer is the
snapshot with the backoff-wrapped boot sequence, the flag-returning
ensureProject and SetPendingStatus calls, and the current GitHub client is
the snapshot whose fetchNewDeploymentEvents takes a filterStatuses flag and
fails with notFoundError on 304 and on an empty remaining list.

Every definition below is a shallow embedding of a concrete Go function of
the repository; the comment above each names its source.
-/

set_option maxRecDepth 4000

namespace DraughtsmanEventer

/-- draughtsmantprspec.Project (vendored type used by the informer): an entry
of the desired-state object, fields ID, Name, Ref. -/
structure Project where
  id   : String
  name : String
  ref  : String
deriving DecidableEq, Repr

/-- eventerspec.DeploymentEvent (service/eventer/spec): ID int, Name, Sha. -/
structure DeploymentEvent where
  id   : Int
  name : String
  sha  : String
deriving DecidableEq, Repr

/-- deploymentStatus of the github client: its State field. The struct
declaration lives in the github.go snapshot that is not among the sources;
the field is reconstructed from its uses in client.go and client_test.go. -/
structure DeploymentStatus where
  state : String
deriving DecidableEq, Repr

/-- deployment of the github client: ID, Environment, and the Statuses list
attached by fetchDeploymentStatus. Reconstructed from uses in client.go. -/
structure Deployment where
  id          : Int
  environment : String
  statuses    : List DeploymentStatus
deriving DecidableEq, Repr

/-- pendingState constant of the github client. -/
def pendingState : String := "pending"

/-- successState constant of the github client. -/
def successState : String := "success"

/-- failureState constant of the github client. -/
def failureState : String := "failure"

/-- filterDeploymentsByStatus (service/eventer/github/client.go:67-87): keeps
a deployment iff every status of its Statuses list is pending; the inner loop
sets isPending to false on the first non-pending status. -/
def filterDeploymentsByStatus (deployments : List Deployment) : List Deployment :=
  deployments.filter (fun d => d.statuses.all (fun s => s.state == pendingState))

/-- filterDeploymentsWithoutStatuses (src/unnamed/part_001:50-64): keeps a
deployment iff its Statuses list has length zero; any deployment with at
least one status entry is skipped by the continue. -/
def filterDeploymentsWithoutStatuses (deployments : List Deployment) : List Deployment :=
  deployments.filter (fun d => d.statuses.length == 0)

/-- getProjectByName (src/unnamed/part_007:265-273): first entry of the list
whose Name equals the argument; none models the notFoundError return. -/
def getProjectByName (projects : List Project) (name : String) : Option Project :=
  match projects with
  | [] => none
  | p :: ps => if p.name = name then some p else getProjectByName ps name

/-- The range loop of ensureProject (src/unnamed/part_007:255-260): find the
first index i with projects[i].Name = project.Name and projects[i].Ref ≠
project.Ref, write projects[i] = project and return true immediately; none
models running off the end of the loop. -/
def ensureProjectReplace (project : Project) : List Project → Option (List Project)
  | [] => none
  | p :: ps =>
    if p.name = project.name ∧ p.ref ≠ project.ref then some (project :: ps)
    else (ensureProjectReplace project ps).map (fun l => p :: l)

/-- ensureProject (src/unnamed/part_007:244-263), the current merge: reject
candidates with an empty ID, Name or Ref; append when no entry carries the
candidate name; else replace the first entry whose Ref differs. -/
def ensureProject (projects : List Project) (project : Project) : List Project × Bool :=
  if project.id = "" ∨ project.name = "" ∨ project.ref = "" then (projects, false)
  else
    match getProjectByName projects project.name with
    | none => (projects ++ [project], true)
    | some _ =>
      match ensureProjectReplace project projects with
      | some replaced => (replaced, true)
      | none => (projects, false)

/-- The loop of the historical ensureProject
(service/eventer/github/github.go:311-329 and
service/informer/informer.go:199-217): it assigns project.Ref to the
per-iteration copy p, which never modifies the slice, so its only observable
effect is that updated becomes true when some entry name matches (the loop
keeps scanning after a match, which does not change that outcome). -/
def ensureProjectOldUpdated (project : Project) : List Project → Bool
  | [] => false
  | p :: ps => if p.name = project.name then true else ensureProjectOldUpdated project ps

/-- ensureProject, historical variant
(service/eventer/github/github.go:311-329, service/informer/informer.go:199-217):
returns the slice unchanged when updated, else appends the candidate. -/
def ensureProjectOld (projects : List Project) (project : Project) : List Project :=
  if ensureProjectOldUpdated project projects then projects else projects ++ [project]

/-- Unique-names invariant of the desired-state object: no two entries of the
project list share a Name. -/
def UniqueNames (projects : List Project) : Prop :=
  (projects.map Project.name).Nodup

instance : DecidablePred UniqueNames := fun l =>
  inferInstanceAs (Decidable (l.map Project.name).Nodup)

/-- The informer builds newProject from a deployment event as
ID: strconv.Itoa(d.ID), Name: d.Name, Ref: d.Sha
(src/unnamed/part_007:163-167 and 203-207). -/
def eventProject (d : DeploymentEvent) : Project :=
  ⟨toString d.id, d.name, d.sha⟩

/-- Observable collaborator calls performed by the reconciliation loop:
tpo.Ensure of the whole desired-state object and SetPendingStatus of one
deployment event. -/
inductive InformerAction
  | ensureTPO (projects : List Project)
  | setPendingStatus (d : DeploymentEvent)
deriving DecidableEq, Repr

/-- The microerror.Mask return paths that abort a boot attempt of
bootWithError (src/unnamed/part_007:128-228). -/
inductive BootError
  | getFailed
  | fetchFailed
  | ensureFailed
  | pendingFailed
  | openFailed
deriving DecidableEq, Repr

/-- Result of the eventer's FetchLatest collaborator call: a deployment
event, a NotFound error, or any other error. -/
inductive FetchResult
  | ok (d : DeploymentEvent)
  | notFound
  | failed
deriving DecidableEq, Repr

/-- Result of the initial tpo.Get of bootWithError: NotFound falls through
to a zero object, ok none models a nil pointer (also replaced by a fresh
zero object), any other error aborts
(src/unnamed/part_007:133-147). -/
inductive InitGet
  | ok (projects : Option (List Project))
  | notFound
  | failed
deriving DecidableEq, Repr

/-- The merge-persist-notify block shared by both passes of bootWithError
(src/unnamed/part_007:163-186 and 203-223): merge the event into the object,
continue without any collaborator call when the merge reports no change, else
call tpo.Ensure on the updated object and then SetPendingStatus for the
event; a failing call aborts the attempt with the actions performed so far.
The oracle ensureOk says whether tpo.Ensure succeeds on the given object,
pendingOk whether SetPendingStatus succeeds for the event. -/
def processEvent (ensureOk : List Project → Bool) (pendingOk : DeploymentEvent → Bool)
    (projects : List Project) (d : DeploymentEvent) :
    Except BootError (List Project) × List InformerAction :=
  let merged := ensureProject projects (eventProject d)
  if merged.2 = false then (.ok merged.1, [])
  else if ensureOk merged.1 then
    if pendingOk d then (.ok merged.1, [.ensureTPO merged.1, .setPendingStatus d])
    else (.error .pendingFailed, [.ensureTPO merged.1])
  else (.error .ensureFailed, [])

/-- The bootstrap pass of bootWithError (src/unnamed/part_007:151-187): for
each configured project in order call FetchLatest; a NotFound result is
skipped and the pass continues, any other fetch failure aborts the attempt,
otherwise the event is merged and persisted through processEvent; the
in-memory object is threaded through the loop. -/
def bootstrapPass (fetchLatest : String → FetchResult)
    (ensureOk : List Project → Bool) (pendingOk : DeploymentEvent → Bool) :
    List String → List Project → Except BootError (List Project) × List InformerAction
  | [], projects => (.ok projects, [])
  | p :: ps, projects =>
    match fetchLatest p with
    | .notFound => bootstrapPass fetchLatest ensureOk pendingOk ps projects
    | .failed => (.error .fetchFailed, [])
    | .ok d =>
      match processEvent ensureOk pendingOk projects d with
      | (.ok merged, acts) =>
        let rest := bootstrapPass fetchLatest ensureOk pendingOk ps merged
        (rest.1, acts ++ rest.2)
      | (.error e, acts) => (.error e, acts)

/-- The steady-state pass of bootWithError (src/unnamed/part_007:191-225)
over a finite prefix of the events received from the channel: each event
re-reads the object from the store (getTPO, indexed by the event's position;
none models a failing Get, which aborts), then merges and persists through
processEvent; the merged object is not threaded because the next event reads
the store again. -/
def steadyPass (getTPO : Nat → Option (List Project))
    (ensureOk : List Project → Bool) (pendingOk : DeploymentEvent → Bool) :
    List DeploymentEvent → Nat → Except BootError Unit × List InformerAction
  | [], _ => (.ok (), [])
  | d :: ds, k =>
    match getTPO k with
    | none => (.error .getFailed, [])
    | some projects =>
      match processEvent ensureOk pendingOk projects d with
      | (.ok _, acts) =>
        let rest := steadyPass getTPO ensureOk pendingOk ds (k + 1)
        (rest.1, acts ++ rest.2)
      | (.error e, acts) => (.error e, acts)

/-- bootWithError (src/unnamed/part_007:128-228): the initial tpo.Get
(NotFound and a nil object fall through to a zero object, other errors
abort), then the bootstrap pass over the configured projects, then the
steady-state pass over the received events; openOk models whether
FetchContinuously succeeds. -/
def bootWithError (init : InitGet) (fetchLatest : String → FetchResult) (openOk : Bool)
    (getTPO : Nat → Option (List Project)) (ensureOk : List Project → Bool)
    (pendingOk : DeploymentEvent → Bool) (projectNames : List String)
    (events : List DeploymentEvent) : Except BootError Unit × List InformerAction :=
  match init with
  | .failed => (.error .getFailed, [])
  | .notFound | .ok _ =>
    let initial : List Project :=
      match init with
      | .ok (some l) => l
      | _ => []
    let boot := bootstrapPass fetchLatest ensureOk pendingOk projectNames initial
    match boot.1 with
    | .error e => (.error e, boot.2)
    | .ok _ =>
      if openOk then
        let steady := steadyPass getTPO ensureOk pendingOk events 0
        (steady.1, boot.2 ++ steady.2)
      else (.error .openFailed, boot.2)

/-- Bootstrap scenario of the spec's partiality property: project api has no
remote deployment (FetchLatest yields NotFound) and project worker has one. -/
def abFetch : String → FetchResult := fun p =>
  if p = "worker" then .ok ⟨7, "worker", "shaB"⟩ else .notFound

/-- Traces in which every pending-status post immediately follows a persist
of the desired-state object: concatenations of blocks [ensureTPO s] and
[ensureTPO s, setPendingStatus d]. -/
inductive GoodTrace : List InformerAction → Prop
  | nil : GoodTrace []
  | persist (s : List Project) {rest : List InformerAction} :
      GoodTrace rest → GoodTrace (InformerAction.ensureTPO s :: rest)
  | persistNotify (s : List Project) (d : DeploymentEvent) {rest : List InformerAction} :
      GoodTrace rest →
      GoodTrace (InformerAction.ensureTPO s :: InformerAction.setPendingStatus d :: rest)

/-- Outcome of the deployments-list request inside fetchNewDeploymentEvents:
a transport failure from e.request, or a response carrying its HTTP status
code, its Etag header value, and the decoded record list (the body is only
read on a 200 status). -/
inductive HttpOutcome
  | failure
  | response (status : Nat) (etag : String) (body : List Deployment)

/-- Error taxonomy of the github client
(the error file of the current github package snapshot). -/
inductive GHError
  | notFound
  | unexpectedStatusCode
  | transport
  | statusFetchFailed
deriving DecidableEq, Repr

/-- Overwrite of the etag map entry for a project, modelling
etagMap[project] = resp.Header.Get(etagHeader)
(src/unnamed/part_001:104-105). -/
def storeEtag (etagMap : String → Option String) (project etag : String) :
    String → Option String :=
  fun q => if q = project then some etag else etagMap q

/-- Attach the status history to every decoded record
(src/unnamed/part_001:125-132): one fetchDeploymentStatus request per
record; the first failure (none) aborts the whole operation. -/
def attachStatuses (fetchStatus : Int → Option (List DeploymentStatus)) :
    List Deployment → Option (List Deployment)
  | [] => some []
  | d :: ds =>
    match fetchStatus d.id with
    | none => none
    | some sts =>
      match attachStatuses fetchStatus ds with
      | none => none
      | some rest => some ({ d with statuses := sts } :: rest)

/-- fetchNewDeploymentEvents (src/unnamed/part_001:68-143): store the Etag
header of the response for the project before any status check, fail with
notFoundError on 304, with unexpectedStatusCode on any other non-200 status,
attach the per-record status histories (first failure aborts), apply the
pending-only filter when filterStatuses is set, fail with notFoundError when
the remaining list is empty, else return the remaining list. The environment
parameter only shapes the request URL and is left out of the model; the
stored etag shapes the If-None-Match header, whose effect is part of the
resp oracle. -/
def fetchNewDeploymentEvents (project : String) (etagMap : String → Option String)
    (filterStatuses : Bool) (resp : HttpOutcome)
    (fetchStatus : Int → Option (List DeploymentStatus)) :
    (String → Option String) × Except GHError (List Deployment) :=
  match resp with
  | .failure => (etagMap, .error .transport)
  | .response status etag body =>
    let etagMap₂ := storeEtag etagMap project etag
    if status = 304 then (etagMap₂, .error .notFound)
    else if status ≠ 200 then (etagMap₂, .error .unexpectedStatusCode)
    else
      match attachStatuses fetchStatus body with
      | none => (etagMap₂, .error .statusFetchFailed)
      | some withStatuses =>
        let remaining :=
          if filterStatuses then filterDeploymentsWithoutStatuses withStatuses
          else withStatuses
        if remaining = [] then (etagMap₂, .error .notFound)
        else (etagMap₂, .ok remaining)

/-- Outcome of one backoff.RetryNotify run: how often the operation was
executed and whether the run ended in success. -/
structure RetryRun where
  attempts  : Nat
  succeeded : Bool
deriving DecidableEq, Repr

/-- The loop of backoff.RetryNotify over backoff.WithMaxTries(delegate, m)
with a zero-delay delegate (the vendored cenk/backoff library is not among
the sources; its observable contract is pinned by
Test_Informer_BackOff_MultipleRetries in the tpo test snapshot, which
expects 4 Get calls for WithMaxTries(&ZeroBackOff, 3)): run the
operation; on success stop; on failure consult NextBackOff, which returns
Stop once the try counter has reached m (m > 0) and increments it otherwise,
so remaining counts the retries still allowed. -/
def retryNotifyLoop (opOk : Nat → Bool) (attempt : Nat) : Nat → RetryRun
  | 0 => ⟨attempt + 1, opOk attempt⟩
  | r + 1 =>
    if opOk attempt then ⟨attempt + 1, true⟩
    else retryNotifyLoop opOk (attempt + 1) r

/-- backoff.RetryNotify of the informer Boot with a WithMaxTries policy:
maxTries retries are allowed after the initial attempt. -/
def retryNotify (opOk : Nat → Bool) (maxTries : Nat) : RetryRun :=
  retryNotifyLoop opOk 0 maxTries

/-- Observable log and exit effects of one informer Boot call. -/
structure BootRun where
  attempts  : Nat
  warnLogs  : Nat
  errorLogs : Nat
  exitCalls : List Nat
deriving DecidableEq, Repr

/-- Modelled from the spec: the shipped informer's Boot wires a fatal-exit
callback (service.go sets informerConfig.ExitFunc = os.Exit, but the
informer snapshot declaring ExitFunc is not among the sources). Boot retries
bootWithError under the policy and logs one warning per retry notification
(the notify closure of Boot); per the spec, when the retry budget is
exhausted the error is logged once at error level and the fatal-exit
callback is invoked with a non-zero code, modelled as exit code 1. -/
def informerBoot (opOk : Nat → Bool) (maxTries : Nat) : BootRun :=
  let run := retryNotify opOk maxTries
  if run.succeeded then ⟨run.attempts, run.attempts - 1, 0, []⟩
  else ⟨run.attempts, run.attempts - 1, 1, [1]⟩

/-- Observable steps of the polling goroutine of NewDeploymentEvents: a
per-project conditional fetch, or a receive from the ticker channel. -/
inductive PollAction
  | fetch (project : String)
  | tickReceive
deriving DecidableEq, Repr

/-- The polling goroutine of NewDeploymentEvents
(service/eventer/github/github.go:165-190). The loop header is
for c := ticker.C; ; <-c and Go evaluates a for statement as init, body,
post, body, post, ..., so each iteration runs one fetch pass over the
configured projects and only then blocks on the ticker receive.
pollLoopTrace gives the action trace of the first n loop iterations. -/
def pollLoopTrace (projectList : List String) : Nat → List PollAction
  | 0 => []
  | n + 1 =>
    projectList.map PollAction.fetch ++ PollAction.tickReceive :: pollLoopTrace projectList n

theorem getProjectByName_eq_none {l : List Project} {n : String} :
    getProjectByName l n = none ↔ ∀ p ∈ l, p.name ≠ n := by
  induction l with
  | nil => simp [getProjectByName]
  | cons p ps ih =>
    by_cases h : p.name = n
    · simp [getProjectByName, h]
    · simp [getProjectByName, h, ih]

theorem getProjectByName_append_right {l l₂ : List Project} {n : String}
    (h : ∀ p ∈ l, p.name ≠ n) :
    getProjectByName (l ++ l₂) n = getProjectByName l₂ n := by
  induction l with
  | nil => rfl
  | cons p ps ih =>
    have hp : p.name ≠ n := h p (List.mem_cons_self p ps)
    have hps : ∀ q ∈ ps, q.name ≠ n := fun q hq => h q (List.mem_cons_of_mem p hq)
    simp [getProjectByName, hp, ih hps]

theorem ensureProjectReplace_eq_none {c : Project} {l : List Project} :
    ensureProjectReplace c l = none ↔ ∀ p ∈ l, ¬(p.name = c.name ∧ p.ref ≠ c.ref) := by
  induction l with
  | nil => simp [ensureProjectReplace]
  | cons p ps ih =>
    by_cases h : p.name = c.name ∧ p.ref ≠ c.ref
    · simp [ensureProjectReplace, if_pos h, h]
    · simp only [ensureProjectReplace, if_neg h, Option.map_eq_none', ih, List.mem_cons]
      constructor
      · intro hall
        rintro q (rfl | hq)
        · exact h
        · exact hall q hq
      · intro hall q hq
        exact hall q (Or.inr hq)

theorem ensureProjectReplace_map_name {c : Project} {l l₂ : List Project}
    (h : ensureProjectReplace c l = some l₂) :
    l₂.map Project.name = l.map Project.name := by
  induction l generalizing l₂ with
  | nil => simp [ensureProjectReplace] at h
  | cons p ps ih =>
    by_cases hp : p.name = c.name ∧ p.ref ≠ c.ref
    · rw [ensureProjectReplace, if_pos hp] at h
      cases h
      simp [hp.1]
    · rw [ensureProjectReplace, if_neg hp] at h
      rcases Option.map_eq_some'.mp h with ⟨l₃, hl₃, rfl⟩
      simp [ih hl₃]

theorem ensureProjectReplace_mem {c : Project} {l l₂ : List Project}
    (h : ensureProjectReplace c l = some l₂) : c ∈ l₂ := by
  induction l generalizing l₂ with
  | nil => simp [ensureProjectReplace] at h
  | cons p ps ih =>
    by_cases hp : p.name = c.name ∧ p.ref ≠ c.ref
    · rw [ensureProjectReplace, if_pos hp] at h
      cases h
      exact List.mem_cons_self _ _
    · rw [ensureProjectReplace, if_neg hp] at h
      rcases Option.map_eq_some'.mp h with ⟨l₃, hl₃, rfl⟩
      exact List.mem_cons_of_mem p (ih hl₃)

theorem ensureProjectOldUpdated_eq_true {c : Project} {l : List Project} :
    ensureProjectOldUpdated c l = true ↔ ∃ p ∈ l, p.name = c.name := by
  induction l with
  | nil => simp [ensureProjectOldUpdated]
  | cons p ps ih =>
    by_cases h : p.name = c.name
    · simp [ensureProjectOldUpdated, h]
    · simp [ensureProjectOldUpdated, h, ih]

/-- The merge is a no-op exactly on the paths that report no change: whenever
ensureProject reports false, the returned list is the input list. -/
theorem ensureProject_false_eq {l : List Project} {c : Project}
    (h : (ensureProject l c).2 = false) : (ensureProject l c).1 = l := by
  by_cases hguard : c.id = "" ∨ c.name = "" ∨ c.ref = ""
  · simp only [ensureProject, if_pos hguard]
  · rcases hfind : getProjectByName l c.name with _ | q
    · simp only [ensureProject, if_neg hguard, hfind] at h
      exact absurd h (by simp)
    · rcases hrep : ensureProjectReplace c l with _ | l₂
      · simp only [ensureProject, if_neg hguard, hfind, hrep]
      · simp only [ensureProject, if_neg hguard, hfind, hrep] at h
        exact absurd h (by simp)

/-- C1: completion filters on the four record shapes of the claim. The older
filterDeploymentsByStatus keeps a record whose statuses are exactly [pending],
drops [pending, success] and [failure], and keeps a record with zero statuses,
exactly as the claim states; but the current client's pending-only filter,
filterDeploymentsWithoutStatuses, drops the [pending] record that its own doc
comment ("filters out deployments that are finished - that is, there exists at
least one status that is not pending") and the test comment in client_test.go
("Test that a pending deployment is kept") say is kept. -/
theorem claim_C1_completion_filter :
    filterDeploymentsByStatus
        [⟨1, "master", [⟨pendingState⟩]⟩, ⟨2, "master", [⟨pendingState⟩, ⟨successState⟩]⟩,
          ⟨3, "master", [⟨failureState⟩]⟩, ⟨4, "master", []⟩] =
      [⟨1, "master", [⟨pendingState⟩]⟩, ⟨4, "master", []⟩] ∧
    filterDeploymentsWithoutStatuses [⟨1, "master", [⟨pendingState⟩]⟩] = [] ∧
    filterDeploymentsWithoutStatuses
        [⟨2, "master", [⟨pendingState⟩, ⟨successState⟩]⟩, ⟨3, "master", [⟨failureState⟩]⟩] = [] ∧
    filterDeploymentsWithoutStatuses [⟨4, "master", []⟩] = [⟨4, "master", []⟩] := by
  decide

/-- C2 counterexample: on a project list holding two entries with the same
name, the second application of ensureProject with the same valid candidate
reports changed=true again and returns a different list, so the claim as
stated over every project list is false. -/
theorem claim_C2_counterexample :
    (ensureProject
        (ensureProject [⟨"1", "n", "r1"⟩, ⟨"1", "n", "r2"⟩] ⟨"2", "n", "r3"⟩).1
        ⟨"2", "n", "r3"⟩).2 = true ∧
    (ensureProject
        (ensureProject [⟨"1", "n", "r1"⟩, ⟨"1", "n", "r2"⟩] ⟨"2", "n", "r3"⟩).1
        ⟨"2", "n", "r3"⟩).1 ≠
      (ensureProject [⟨"1", "n", "r1"⟩, ⟨"1", "n", "r2"⟩] ⟨"2", "n", "r3"⟩).1 := by
  decide

/-- C2 amended: for every project list whose entry names are pairwise
distinct (the invariant the informer maintains) and every valid candidate,
applying ensureProject twice with the same candidate yields changed=false on
the second application and the second list equals the first. -/
theorem claim_C2_idempotent_merge (l : List Project) (c : Project)
    (hu : UniqueNames l) (hid : c.id ≠ "") (hn : c.name ≠ "") (hr : c.ref ≠ "") :
    (ensureProject (ensureProject l c).1 c).2 = false ∧
    (ensureProject (ensureProject l c).1 c).1 = (ensureProject l c).1 := by
  have hguard : ¬(c.id = "" ∨ c.name = "" ∨ c.ref = "") := by
    simp [hid, hn, hr]
  rcases hfind : getProjectByName l c.name with _ | p0
  · have hnames : ∀ p ∈ l, p.name ≠ c.name := getProjectByName_eq_none.mp hfind
    have hfirst : ensureProject l c = (l ++ [c], true) := by
      simp only [ensureProject, if_neg hguard, hfind]
    have hfind2 : getProjectByName (l ++ [c]) c.name = some c := by
      rw [getProjectByName_append_right hnames]
      simp [getProjectByName]
    have hrep2 : ensureProjectReplace c (l ++ [c]) = none := by
      rw [ensureProjectReplace_eq_none]
      intro p hp hcontra
      rcases List.mem_append.mp hp with hpl | hpc
      · exact hnames p hpl hcontra.1
      · rw [List.mem_singleton.mp hpc] at hcontra
        exact hcontra.2 rfl
    have hsecond : ensureProject (l ++ [c]) c = (l ++ [c], false) := by
      simp only [ensureProject, if_neg hguard, hfind2, hrep2]
    rw [hfirst]
    exact ⟨by rw [hsecond], by rw [hsecond]⟩
  · rcases hrep : ensureProjectReplace c l with _ | l₂
    · have hfirst : ensureProject l c = (l, false) := by
        simp only [ensureProject, if_neg hguard, hfind, hrep]
      rw [hfirst]
      exact ⟨by rw [hfirst], by rw [hfirst]⟩
    · have hfirst : ensureProject l c = (l₂, true) := by
        simp only [ensureProject, if_neg hguard, hfind, hrep]
      have hmem : c ∈ l₂ := ensureProjectReplace_mem hrep
      have hu₂ : UniqueNames l₂ := by
        unfold UniqueNames at hu ⊢
        rw [ensureProjectReplace_map_name hrep]
        exact hu
      have hrep2 : ensureProjectReplace c l₂ = none := by
        rw [ensureProjectReplace_eq_none]
        intro p hp hcontra
        have hpe : p = c := List.inj_on_of_nodup_map hu₂ hp hmem hcontra.1
        exact hcontra.2 (by rw [hpe])
      rcases hfind2 : getProjectByName l₂ c.name with _ | q
      · exact absurd rfl (getProjectByName_eq_none.mp hfind2 c hmem)
      · have hsecond : ensureProject l₂ c = (l₂, false) := by
          simp only [ensureProject, if_neg hguard, hfind2, hrep2]
        rw [hfirst]
        exact ⟨by rw [hsecond], by rw [hsecond]⟩

/-- C2 witness: the amended idempotence at a concrete valid candidate and the
empty list. -/
theorem claim_C2_idempotent_merge_witness :
    (ensureProject (ensureProject [] ⟨"1", "api", "sha"⟩).1 ⟨"1", "api", "sha"⟩).2 = false ∧
    (ensureProject (ensureProject [] ⟨"1", "api", "sha"⟩).1 ⟨"1", "api", "sha"⟩).1 =
      (ensureProject [] ⟨"1", "api", "sha"⟩).1 :=
  claim_C2_idempotent_merge [] ⟨"1", "api", "sha"⟩ (by decide) (by decide) (by decide) (by decide)

/-- Every single ensureProject application preserves the unique-names
invariant of the desired-state object. -/
theorem ensureProject_uniqueNames {l : List Project} (c : Project) (hu : UniqueNames l) :
    UniqueNames (ensureProject l c).1 := by
  by_cases hguard : c.id = "" ∨ c.name = "" ∨ c.ref = ""
  · simp only [ensureProject, if_pos hguard]
    exact hu
  · rcases hfind : getProjectByName l c.name with _ | p0
    · have hnames : ∀ p ∈ l, p.name ≠ c.name := getProjectByName_eq_none.mp hfind
      simp only [ensureProject, if_neg hguard, hfind]
      unfold UniqueNames at hu ⊢
      rw [List.map_append]
      refine List.nodup_append.mpr ⟨hu, List.nodup_singleton _, ?_⟩
      intro x hx hx2
      rcases List.mem_map.mp hx with ⟨p, hp, rfl⟩
      exact hnames p hp (List.mem_singleton.mp hx2)
    · rcases hrep : ensureProjectReplace c l with _ | l₂
      · simp only [ensureProject, if_neg hguard, hfind, hrep]
        exact hu
      · simp only [ensureProject, if_neg hguard, hfind, hrep]
        unfold UniqueNames at hu ⊢
        rw [ensureProjectReplace_map_name hrep]
        exact hu

/-- C3: for every sequence of candidates applied via ensureProject starting
from a list with pairwise-distinct names, the resulting project list never
contains two entries with the same name. -/
theorem claim_C3_key_uniqueness (cands : List Project) (l₀ : List Project)
    (hu : UniqueNames l₀) :
    UniqueNames (cands.foldl (fun l c => (ensureProject l c).1) l₀) := by
  induction cands generalizing l₀ with
  | nil => exact hu
  | cons c cs ih => exact ih _ (ensureProject_uniqueNames c hu)

/-- C3 witness: a concrete candidate sequence applied to the empty list. -/
theorem claim_C3_key_uniqueness_witness :
    UniqueNames
      ([⟨"1", "api", "sha1"⟩, ⟨"2", "api", "sha2"⟩, ⟨"3", "worker", "sha3"⟩].foldl
        (fun l c => (ensureProject l c).1) []) :=
  claim_C3_key_uniqueness [⟨"1", "api", "sha1"⟩, ⟨"2", "api", "sha2"⟩, ⟨"3", "worker", "sha3"⟩]
    [] (by decide)

/-- C9 counterexample: when an entry with the candidate's name exists with a
different ref, the historical ensureProject variant returns the input list
unchanged (the write to the range-loop variable is lost), while the current
variant replaces the entry with the candidate, so the two variants do not
compute the same list. -/
theorem claim_C9_counterexample :
    ensureProjectOld [⟨"1", "api", "sha1"⟩] ⟨"2", "api", "sha2"⟩ ≠
      (ensureProject [⟨"1", "api", "sha1"⟩] ⟨"2", "api", "sha2"⟩).1 ∧
    ensureProjectOld [⟨"1", "api", "sha1"⟩] ⟨"2", "api", "sha2"⟩ = [⟨"1", "api", "sha1"⟩] ∧
    (ensureProject [⟨"1", "api", "sha1"⟩] ⟨"2", "api", "sha2"⟩).1 = [⟨"2", "api", "sha2"⟩] := by
  decide

/-- C9 amended: the historical variant returns the input list unchanged
whenever some entry carries the candidate's name; the two variants agree
when the candidate is valid and no entry carries its name (both append), and
when every entry carrying the candidate's name already has the candidate's
ref (both leave the list unchanged). -/
theorem claim_C9_variant_agreement (l : List Project) (c : Project) :
    ((∃ p ∈ l, p.name = c.name) → ensureProjectOld l c = l) ∧
    ((∀ p ∈ l, p.name ≠ c.name) → c.id ≠ "" → c.name ≠ "" → c.ref ≠ "" →
      ensureProjectOld l c = (ensureProject l c).1) ∧
    ((∃ p ∈ l, p.name = c.name) → (∀ p ∈ l, p.name = c.name → p.ref = c.ref) →
      ensureProjectOld l c = (ensureProject l c).1) := by
  refine ⟨?_, ?_, ?_⟩
  · intro hex
    rw [ensureProjectOld, if_pos (ensureProjectOldUpdated_eq_true.mpr hex)]
  · intro hnames hid hn hr
    have hguard : ¬(c.id = "" ∨ c.name = "" ∨ c.ref = "") := by
      simp [hid, hn, hr]
    have hup : ensureProjectOldUpdated c l ≠ true := by
      intro hup
      rcases ensureProjectOldUpdated_eq_true.mp hup with ⟨p, hp, hpn⟩
      exact hnames p hp hpn
    have hfind : getProjectByName l c.name = none :=
      getProjectByName_eq_none.mpr hnames
    rw [ensureProjectOld, if_neg hup]
    simp only [ensureProject, if_neg hguard, hfind]
  · intro hex hrefs
    have hold : ensureProjectOld l c = l := by
      rw [ensureProjectOld, if_pos (ensureProjectOldUpdated_eq_true.mpr hex)]
    rw [hold]
    by_cases hguard : c.id = "" ∨ c.name = "" ∨ c.ref = ""
    · simp only [ensureProject, if_pos hguard]
    · have hrep : ensureProjectReplace c l = none := by
        rw [ensureProjectReplace_eq_none]
        intro p hp hcontra
        exact hcontra.2 (hrefs p hp hcontra.1)
      rcases hfind : getProjectByName l c.name with _ | q
      · rcases hex with ⟨p, hp, hpn⟩
        exact absurd hpn (getProjectByName_eq_none.mp hfind p hp)
      · simp only [ensureProject, if_neg hguard, hfind, hrep]

/-- C9 witness: the agreement of both variants at a concrete fresh valid
candidate over the empty list. -/
theorem claim_C9_variant_agreement_witness :
    ensureProjectOld [] ⟨"1", "api", "sha1"⟩ =
      (ensureProject [] ⟨"1", "api", "sha1"⟩).1 :=
  (claim_C9_variant_agreement [] ⟨"1", "api", "sha1"⟩).2.1 (by simp)
    (by decide) (by decide) (by decide)

/-- C10 counterexample: the input list contains an entry (the second one)
whose name and ref both equal the candidate's, yet ensureProject reports
changed=true and returns a different list, because the first entry shares the
name with a different ref; the claim as stated over every list is false. -/
theorem claim_C10_counterexample :
    ((⟨"1", "n", "r1"⟩ : Project) ∈ [(⟨"1", "n", "r2"⟩ : Project), ⟨"1", "n", "r1"⟩] ∧
      (⟨"1", "n", "r1"⟩ : Project).name = (⟨"2", "n", "r1"⟩ : Project).name ∧
      (⟨"1", "n", "r1"⟩ : Project).ref = (⟨"2", "n", "r1"⟩ : Project).ref) ∧
    (ensureProject [⟨"1", "n", "r2"⟩, ⟨"1", "n", "r1"⟩] ⟨"2", "n", "r1"⟩).2 = true ∧
    (ensureProject [⟨"1", "n", "r2"⟩, ⟨"1", "n", "r1"⟩] ⟨"2", "n", "r1"⟩).1 ≠
      [⟨"1", "n", "r2"⟩, ⟨"1", "n", "r1"⟩] := by
  decide

/-- C10 amended: over a list with pairwise-distinct names (the informer's
invariant), if some entry matches the candidate's name and ref then
ensureProject returns the input list unchanged with changed=false, even when
that entry's id differs from the candidate's id. -/
theorem claim_C10_ref_only_identity (l : List Project) (c e : Project)
    (hu : UniqueNames l) (he : e ∈ l) (hname : e.name = c.name) (href : e.ref = c.ref) :
    ensureProject l c = (l, false) := by
  by_cases hguard : c.id = "" ∨ c.name = "" ∨ c.ref = ""
  · simp only [ensureProject, if_pos hguard]
  · have hrep : ensureProjectReplace c l = none := by
      rw [ensureProjectReplace_eq_none]
      intro p hp hcontra
      have hpe : p = e := List.inj_on_of_nodup_map hu hp he (hcontra.1.trans hname.symm)
      exact hcontra.2 (by rw [hpe]; exact href)
    rcases hfind : getProjectByName l c.name with _ | q
    · exact absurd hname (getProjectByName_eq_none.mp hfind e he)
    · simp only [ensureProject, if_neg hguard, hfind, hrep]

/-- C10 witness: a concrete singleton list whose entry shares name and ref
with the candidate but has a different id; the call is a reported no-op. -/
theorem claim_C10_ref_only_identity_witness :
    ensureProject [⟨"1", "api", "sha1"⟩] ⟨"2", "api", "sha1"⟩ =
      ([⟨"1", "api", "sha1"⟩], false) :=
  claim_C10_ref_only_identity [⟨"1", "api", "sha1"⟩] ⟨"2", "api", "sha1"⟩
    ⟨"1", "api", "sha1"⟩ (by decide) (by decide) rfl rfl

theorem GoodTrace.append {a b : List InformerAction}
    (ha : GoodTrace a) (hb : GoodTrace b) : GoodTrace (a ++ b) := by
  induction ha with
  | nil => exact hb
  | persist s _ ih => exact GoodTrace.persist s ih
  | persistNotify s d _ ih => exact GoodTrace.persistNotify s d ih

theorem processEvent_noChange {eo : List Project → Bool} {po : DeploymentEvent → Bool}
    {s : List Project} {d : DeploymentEvent}
    (h : (ensureProject s (eventProject d)).2 = false) :
    processEvent eo po s d = (.ok s, []) := by
  have h1 := ensureProject_false_eq h
  simp [processEvent, h, h1]

theorem processEvent_goodTrace (eo : List Project → Bool) (po : DeploymentEvent → Bool)
    (s : List Project) (d : DeploymentEvent) : GoodTrace (processEvent eo po s d).2 := by
  by_cases h1 : (ensureProject s (eventProject d)).2 = false
  · simp only [processEvent, if_pos h1]
    exact GoodTrace.nil
  · cases heo : eo (ensureProject s (eventProject d)).1 with
    | false =>
      simp only [processEvent, if_neg h1, heo, Bool.false_eq_true, if_false]
      exact GoodTrace.nil
    | true =>
      cases hpo : po d with
      | false =>
        simp only [processEvent, if_neg h1, heo, hpo, Bool.false_eq_true, if_true, if_false]
        exact GoodTrace.persist _ GoodTrace.nil
      | true =>
        simp only [processEvent, if_neg h1, heo, hpo, if_true]
        exact GoodTrace.persistNotify _ _ GoodTrace.nil

theorem processEvent_pending_mem {eo : List Project → Bool} {po : DeploymentEvent → Bool}
    {s : List Project} {d d₂ : DeploymentEvent}
    (h : InformerAction.setPendingStatus d₂ ∈ (processEvent eo po s d).2) :
    d₂ = d ∧ (ensureProject s (eventProject d)).2 = true ∧
    eo (ensureProject s (eventProject d)).1 = true ∧
    (processEvent eo po s d).2 =
      [InformerAction.ensureTPO (ensureProject s (eventProject d)).1,
        InformerAction.setPendingStatus d] := by
  by_cases h1 : (ensureProject s (eventProject d)).2 = false
  · simp [processEvent, h1] at h
  · have h1t : (ensureProject s (eventProject d)).2 = true := by
      simpa using h1
    cases heo : eo (ensureProject s (eventProject d)).1 with
    | false => simp [processEvent, h1, heo] at h
    | true =>
      cases hpo : po d with
      | false => simp [processEvent, h1, heo, hpo] at h
      | true =>
        simp only [processEvent, if_neg h1, heo, hpo, if_true, List.mem_cons,
          List.mem_singleton, List.not_mem_nil, or_false] at h
        rcases h with h | h
        · exact absurd h (by simp)
        · cases h
          exact ⟨rfl, h1t, rfl, by simp only [processEvent, if_neg h1, heo, hpo, if_true]⟩

theorem bootstrapPass_goodTrace (f : String → FetchResult) (eo : List Project → Bool)
    (po : DeploymentEvent → Bool) (ps : List String) :
    ∀ s : List Project, GoodTrace (bootstrapPass f eo po ps s).2 := by
  induction ps with
  | nil =>
    intro s
    exact GoodTrace.nil
  | cons p ps ih =>
    intro s
    cases hf : f p with
    | notFound =>
      simpa only [bootstrapPass, hf] using ih s
    | failed =>
      simp only [bootstrapPass, hf]
      exact GoodTrace.nil
    | ok d =>
      have hgood := processEvent_goodTrace eo po s d
      rcases hpe : processEvent eo po s d with ⟨res, acts⟩
      rw [hpe] at hgood
      cases res with
      | ok merged =>
        simp only [bootstrapPass, hf, hpe]
        exact GoodTrace.append hgood (ih merged)
      | error e =>
        simpa only [bootstrapPass, hf, hpe] using hgood

theorem steadyPass_goodTrace (g : Nat → Option (List Project)) (eo : List Project → Bool)
    (po : DeploymentEvent → Bool) (events : List DeploymentEvent) :
    ∀ k : Nat, GoodTrace (steadyPass g eo po events k).2 := by
  induction events with
  | nil =>
    intro k
    exact GoodTrace.nil
  | cons d ds ih =>
    intro k
    cases hg : g k with
    | none =>
      simp only [steadyPass, hg]
      exact GoodTrace.nil
    | some projects =>
      have hgood := processEvent_goodTrace eo po projects d
      rcases hpe : processEvent eo po projects d with ⟨res, acts⟩
      rw [hpe] at hgood
      cases res with
      | ok merged =>
        simp only [steadyPass, hg, hpe]
        exact GoodTrace.append hgood (ih (k + 1))
      | error e =>
        simpa only [steadyPass, hg, hpe] using hgood

theorem bootWithError_goodTrace (init : InitGet) (f : String → FetchResult) (openOk : Bool)
    (g : Nat → Option (List Project)) (eo : List Project → Bool)
    (po : DeploymentEvent → Bool) (names : List String) (events : List DeploymentEvent) :
    GoodTrace (bootWithError init f openOk g eo po names events).2 := by
  cases init with
  | failed =>
    exact GoodTrace.nil
  | notFound =>
    simp only [bootWithError]
    rcases hb : (bootstrapPass f eo po names []).1 with e | s
    · have := bootstrapPass_goodTrace f eo po names []
      simpa [hb] using this
    · by_cases ho : openOk = true
      · simp only [hb, ho, if_true]
        exact GoodTrace.append (bootstrapPass_goodTrace f eo po names [])
          (steadyPass_goodTrace g eo po events 0)
      · simp only [hb, ho, if_false]
        exact bootstrapPass_goodTrace f eo po names []
  | ok tpo =>
    cases tpo with
    | none =>
      simp only [bootWithError]
      rcases hb : (bootstrapPass f eo po names []).1 with e | s
      · have := bootstrapPass_goodTrace f eo po names []
        simpa [hb] using this
      · by_cases ho : openOk = true
        · simp only [hb, ho, if_true]
          exact GoodTrace.append (bootstrapPass_goodTrace f eo po names [])
            (steadyPass_goodTrace g eo po events 0)
        · simp only [hb, ho, if_false]
          exact bootstrapPass_goodTrace f eo po names []
    | some l =>
      simp only [bootWithError]
      rcases hb : (bootstrapPass f eo po names l).1 with e | s
      · have := bootstrapPass_goodTrace f eo po names l
        simpa [hb] using this
      · by_cases ho : openOk = true
        · simp only [hb, ho, if_true]
          exact GoodTrace.append (bootstrapPass_goodTrace f eo po names l)
            (steadyPass_goodTrace g eo po events 0)
        · simp only [hb, ho, if_false]
          exact bootstrapPass_goodTrace f eo po names l

/-- C4: in both the bootstrap pass and the steady-state pass of the
reconciliation loop, an event whose merge reports no change triggers neither
a persist nor a status post and leaves the object unchanged; a pending
status is posted for an event only when its merge reported a change and only
immediately after the updated object was successfully persisted; and every
trace of the whole boot sequence consists of persist blocks in which any
pending post directly follows its persist. -/
theorem claim_C4_persist_then_notify :
    (∀ (eo : List Project → Bool) (po : DeploymentEvent → Bool)
        (s : List Project) (d : DeploymentEvent),
        (ensureProject s (eventProject d)).2 = false →
        processEvent eo po s d = (.ok s, [])) ∧
    (∀ (eo : List Project → Bool) (po : DeploymentEvent → Bool)
        (s : List Project) (d d₂ : DeploymentEvent),
        InformerAction.setPendingStatus d₂ ∈ (processEvent eo po s d).2 →
        d₂ = d ∧ (ensureProject s (eventProject d)).2 = true ∧
        eo (ensureProject s (eventProject d)).1 = true ∧
        (processEvent eo po s d).2 =
          [InformerAction.ensureTPO (ensureProject s (eventProject d)).1,
            InformerAction.setPendingStatus d]) ∧
    (∀ (init : InitGet) (f : String → FetchResult) (openOk : Bool)
        (g : Nat → Option (List Project)) (eo : List Project → Bool)
        (po : DeploymentEvent → Bool) (names : List String)
        (events : List DeploymentEvent),
        GoodTrace (bootWithError init f openOk g eo po names events).2) :=
  ⟨fun _ _ _ _ h => processEvent_noChange h,
    fun _ _ _ _ _ h => processEvent_pending_mem h,
    fun init f openOk g eo po names events =>
      bootWithError_goodTrace init f openOk g eo po names events⟩

/-- C4 witness: a merge that reports no change (same project name and ref
already present) performs no persist and no post. -/
theorem claim_C4_persist_then_notify_witness :
    processEvent (fun _ => true) (fun _ => true) [⟨"1", "api", "sha"⟩] ⟨1, "api", "sha"⟩ =
      (.ok [⟨"1", "api", "sha"⟩], []) :=
  claim_C4_persist_then_notify.1 (fun _ => true) (fun _ => true) [⟨"1", "api", "sha"⟩]
    ⟨1, "api", "sha"⟩ (by decide)

/-- C5: during the bootstrap pass a NotFound from FetchLatest skips the
project and continues with the rest, any other fetch failure aborts the
whole attempt, and in the concrete scenario with projects [api, worker]
where api yields NotFound and worker yields a deployment, the pass succeeds
with a desired state containing exactly the worker entry and nothing for
api. -/
theorem claim_C5_bootstrap_partiality :
    (∀ (f : String → FetchResult) (eo : List Project → Bool)
        (po : DeploymentEvent → Bool) (p : String) (ps : List String) (s : List Project),
        f p = .notFound →
        bootstrapPass f eo po (p :: ps) s = bootstrapPass f eo po ps s) ∧
    (∀ (f : String → FetchResult) (eo : List Project → Bool)
        (po : DeploymentEvent → Bool) (p : String) (ps : List String) (s : List Project),
        f p = .failed →
        bootstrapPass f eo po (p :: ps) s = (.error .fetchFailed, [])) ∧
    (bootstrapPass abFetch (fun _ => true) (fun _ => true) ["api", "worker"] [] =
      (.ok [⟨"7", "worker", "shaB"⟩],
        [InformerAction.ensureTPO [⟨"7", "worker", "shaB"⟩],
          InformerAction.setPendingStatus ⟨7, "worker", "shaB"⟩]) ∧
      (∃ q ∈ [(⟨"7", "worker", "shaB"⟩ : Project)], q.name = "worker") ∧
      (∀ q ∈ [(⟨"7", "worker", "shaB"⟩ : Project)], q.name ≠ "api")) := by
  refine ⟨?_, ?_, ?_⟩
  · intro f eo po p ps s h
    simp [bootstrapPass, h]
  · intro f eo po p ps s h
    simp [bootstrapPass, h]
  · exact ⟨by rfl, by decide, by decide⟩

/-- C5 witness: in the concrete scenario, the NotFound on api makes the pass
over [api, worker] equal to the pass over [worker] alone. -/
theorem claim_C5_bootstrap_partiality_witness :
    bootstrapPass abFetch (fun _ => true) (fun _ => true) ["api", "worker"] [] =
      bootstrapPass abFetch (fun _ => true) (fun _ => true) ["worker"] [] :=
  claim_C5_bootstrap_partiality.1 abFetch (fun _ => true) (fun _ => true) "api" ["worker"] []
    (by decide)

/-- C6: the conditional fetch fails with NotFound exactly when the remote
answers 304 (not modified) or when the list remaining after status
attachment and the optional pending-only filter is empty; every successful
return carries a non-empty list. -/
theorem claim_C6_conditional_fetch_notFound (project : String)
    (etagMap : String → Option String) (filterStatuses : Bool) (resp : HttpOutcome)
    (fetchStatus : Int → Option (List DeploymentStatus)) :
    ((fetchNewDeploymentEvents project etagMap filterStatuses resp fetchStatus).2 =
        Except.error GHError.notFound ↔
      (∃ etag body, resp = HttpOutcome.response 304 etag body) ∨
      (∃ etag body withStatuses,
        resp = HttpOutcome.response 200 etag body ∧
        attachStatuses fetchStatus body = some withStatuses ∧
        (if filterStatuses then filterDeploymentsWithoutStatuses withStatuses
          else withStatuses) = [])) ∧
    ∀ l, (fetchNewDeploymentEvents project etagMap filterStatuses resp fetchStatus).2 =
        Except.ok l → l ≠ [] := by
  cases resp with
  | failure =>
    refine ⟨?_, ?_⟩
    · simp [fetchNewDeploymentEvents]
    · intro l hl
      simp [fetchNewDeploymentEvents] at hl
  | response status etag body =>
    by_cases h304 : status = 304
    · subst h304
      refine ⟨?_, ?_⟩
      · constructor
        · intro _
          exact Or.inl ⟨etag, body, rfl⟩
        · intro _
          simp [fetchNewDeploymentEvents]
      · intro l hl
        simp [fetchNewDeploymentEvents] at hl
    · by_cases h200 : status = 200
      · subst h200
        rcases hat : attachStatuses fetchStatus body with _ | withStatuses
        · refine ⟨?_, ?_⟩
          · constructor
            · intro h
              simp [fetchNewDeploymentEvents, hat] at h
            · rintro (⟨e, b, heq⟩ | ⟨e, b, w, heq, hw, hempty⟩)
              · injection heq with h1 h2 h3
                exact absurd h1 (by decide)
              · injection heq with h1 h2 h3
                subst h3
                rw [hat] at hw
                cases hw
          · intro l hl
            simp [fetchNewDeploymentEvents, hat] at hl
        · by_cases hrem :
            (if filterStatuses then filterDeploymentsWithoutStatuses withStatuses
              else withStatuses) = []
          · refine ⟨?_, ?_⟩
            · constructor
              · intro _
                exact Or.inr ⟨etag, body, withStatuses, rfl, hat, hrem⟩
              · intro _
                simp [fetchNewDeploymentEvents, hat, hrem]
            · intro l hl
              simp [fetchNewDeploymentEvents, hat, hrem] at hl
          · refine ⟨?_, ?_⟩
            · constructor
              · intro h
                simp [fetchNewDeploymentEvents, hat, hrem] at h
              · rintro (⟨e, b, heq⟩ | ⟨e, b, w, heq, hw, hempty⟩)
                · injection heq with h1 h2 h3
                  exact absurd h1 (by decide)
                · injection heq with h1 h2 h3
                  subst h3
                  rw [hat] at hw
                  cases hw
                  exact absurd hempty hrem
            · intro l hl
              simp only [fetchNewDeploymentEvents, hat] at hl
              rw [if_neg (by decide), if_neg (by decide)] at hl
              rw [if_neg hrem] at hl
              cases hl
              exact hrem
      · refine ⟨?_, ?_⟩
        · constructor
          · intro h
            simp [fetchNewDeploymentEvents, h304, h200] at h
          · rintro (⟨e, b, heq⟩ | ⟨e, b, w, heq, hw, hempty⟩)
            · injection heq with h1 h2 h3
              exact absurd h1 h304
            · injection heq with h1 h2 h3
              exact absurd h1 h200
        · intro l hl
          simp [fetchNewDeploymentEvents, h304, h200] at hl

/-- C6 witness: a concrete 200 response with one record without statuses
passes the pending-only filter, so the fetch succeeds with a non-empty
list. -/
theorem claim_C6_conditional_fetch_notFound_witness :
    ([(⟨5, "master", []⟩ : Deployment)] : List Deployment) ≠ [] :=
  (claim_C6_conditional_fetch_notFound "api" (fun _ => none) true
      (HttpOutcome.response 200 "tag" [⟨5, "master", []⟩]) (fun _ => some [])).2
    [⟨5, "master", []⟩] (by rfl)

theorem retryNotifyLoop_alwaysFail (r : Nat) :
    ∀ a : Nat, retryNotifyLoop (fun _ => false) a r = ⟨a + r + 1, false⟩ := by
  induction r with
  | zero =>
    intro a
    simp [retryNotifyLoop]
  | succ r ih =>
    intro a
    simp only [retryNotifyLoop, Bool.false_eq_true, if_false, ih (a + 1)]
    simp [RetryRun.mk.injEq]
    omega

/-- C7 counterexample: with an always-failing attempt and
WithMaxTries(ZeroBackOff, 3) (the policy named by the claim), the attempt is
executed 4 times, not 3, matching the 4 Get calls that the repository's own
Test_Informer_BackOff_MultipleRetries expects. -/
theorem claim_C7_counterexample :
    (informerBoot (fun _ => false) 3).attempts = 4 ∧
    ¬(informerBoot (fun _ => false) 3).attempts = 3 := by
  decide

/-- C7 amended: with an always-failing attempt and a WithMaxTries policy
allowing m retries, the attempt is executed exactly m + 1 times (4 for
m = 3), m warnings are logged, the exhaustion error is logged exactly once
at error level, and the fatal-exit callback is invoked exactly once with the
non-zero code 1. -/
theorem claim_C7_retry_exhaustion :
    (∀ maxTries : Nat, informerBoot (fun _ => false) maxTries =
      ⟨maxTries + 1, maxTries, 1, [1]⟩) ∧
    (informerBoot (fun _ => false) 3).attempts = 4 ∧
    (informerBoot (fun _ => false) 3).errorLogs = 1 ∧
    (informerBoot (fun _ => false) 3).exitCalls = [1] := by
  refine ⟨?_, by decide, by decide, by decide⟩
  intro maxTries
  simp only [informerBoot, retryNotify, retryNotifyLoop_alwaysFail maxTries 0]
  simp [BootRun.mk.injEq]

/-- C8 counterexample: with one configured project, the trace of the first
loop iteration is the fetch followed by the ticker receive, so the first
receive does not precede the first fetch: there is an immediate fetch pass
at loop start. -/
theorem claim_C8_counterexample :
    pollLoopTrace ["api"] 1 = [PollAction.fetch "api", PollAction.tickReceive] ∧
    (pollLoopTrace ["api"] 1).head? = some (PollAction.fetch "api") ∧
    ¬(pollLoopTrace ["api"] 1).head? = some PollAction.tickReceive := by
  decide

/-- C8 amended: every loop iteration performs its full fetch pass first and
only then blocks on the ticker receive; in particular the first action of
the loop with a non-empty project list is a fetch, not a tick receive, so
the first fetch happens immediately at loop start. -/
theorem claim_C8_first_pass_immediate :
    (∀ (ps : List String) (n : Nat),
      pollLoopTrace ps (n + 1) =
        ps.map PollAction.fetch ++ PollAction.tickReceive :: pollLoopTrace ps n) ∧
    (∀ (p : String) (ps : List String) (n : Nat),
      (pollLoopTrace (p :: ps) (n + 1)).head? = some (PollAction.fetch p)) := by
  refine ⟨fun ps n => rfl, fun p ps n => ?_⟩
  simp [pollLoopTrace]

end DraughtsmanEventer
